import Mathlib

/-!
Verification of the KSDynamicLinker binary image registry
(`Sources/KSCrashRecordingCore/KSDynamicLinker.c`).

The C code is shallowly embedded:

* Mach-O headers become a Lean structure holding the magic value, cpu
  type/subtype, filetype and the list of load commands that the C code walks
  (`cmdPtr` advancing by `cmdsize` corresponds to stepping through the list;
  unrecognized commands are the `other` constructor).
* Pointers that the code only compares or stores become `Nat` addresses;
  NULL-able pointers become `Option`.
* The external collaborators (`dladdr`/`get_path`, `getsectiondata`,
  `ksmem_maxReadableBytes`, `ksmem_isMemoryReadable`) are modelled by an
  environment value describing their answers for the header being parsed.
* The registry's singly linked list is modelled twice: a sequential model in
  which the registry state is the list of descriptors in insertion order
  (used for the functional claims), and a small-step concurrent model of
  `add_image`'s two-step tail-swap/link publication protocol (used for the
  concurrency claims).
* Machine arithmetic is `Nat` with an explicit `% 2 ^ w` where the C code can
  wrap (the `vm_address_t` range computation in `contains_address`, and the
  `uint32_t` `current_version` field).
-/

namespace KSDL

/-! ### Mach-O header model -/

/-- MH_MAGIC: 32-bit mach header magic. -/
def MH_MAGIC : Nat := 0xfeedface

/-- MH_CIGAM: byte-swapped 32-bit magic. -/
def MH_CIGAM : Nat := 0xcefaedfe

/-- MH_MAGIC_64: 64-bit mach header magic. -/
def MH_MAGIC_64 : Nat := 0xfeedfacf

/-- MH_CIGAM_64: byte-swapped 64-bit magic. -/
def MH_CIGAM_64 : Nat := 0xcffaedfe

/-- SEG_TEXT: the reserved name of the code segment, "__TEXT". -/
def SEG_TEXT : List Char := "__TEXT".toList

/-- One entry of a Mach-O load command table.  The C code walks the table via
`cmdPtr += loadCmd->cmdsize` and switches on `loadCmd->cmd`; commands other
than LC_SEGMENT, LC_SEGMENT_64, LC_UUID and LC_ID_DYLIB are skipped, which the
`other` constructor models. -/
inductive LoadCommand
  | segment (segname : List Char) (vmaddr vmsize : Nat)
  | segment64 (segname : List Char) (vmaddr vmsize : Nat)
  | uuidCmd (uuid : List Nat)
  | idDylib (current_version : Nat)
  | other
deriving DecidableEq

/-- The contents of a `struct mach_header` / `mach_header_64` together with
its command table. `ncmds` is `cmds.length`. -/
structure MachHeader where
  magic : Nat
  cputype : Int
  cpusubtype : Int
  filetype : Nat
  cmds : List LoadCommand
deriving DecidableEq

/-- A loaded image: the runtime address of its mach header (the value of the
`const struct mach_header *` pointer) together with the header contents found
at that address. -/
structure Image where
  addr : Nat
  mh : MachHeader
deriving DecidableEq

/-- The magic values accepted by the `switch (header->magic)` in
`ksdl_first_cmd_after_header`. -/
def magic_recognized (magic : Nat) : Bool :=
  magic == MH_MAGIC || magic == MH_CIGAM || magic == MH_MAGIC_64 || magic == MH_CIGAM_64

/-- Models `ksdl_first_cmd_after_header(header) != 0`: the function returns 0
for a NULL header or an unrecognized magic, and otherwise the (nonzero)
address just past the header. -/
def ksdl_first_cmd_after_header_ok : Option Image → Bool
  | none => false
  | some img => magic_recognized img.mh.magic

/-! ### Crash-info section model -/

/-- KSDL_MaxCrashInfoStringLength. -/
def KSDL_MaxCrashInfoStringLength : Nat := 4096

/-- `isValidCrashInfoMessage(str)`.  A candidate `const char *` is modelled as
`none` for NULL, or `some bytes` where `bytes` is the full sequence of bytes
readable starting at the pointer; `ksmem_maxReadableBytes(str, limit)` is then
`min bytes.length limit`. -/
def isValidCrashInfoMessage : Option (List Nat) → Bool
  | none => false
  | some bytes =>
    let maxReadableBytes := min bytes.length (KSDL_MaxCrashInfoStringLength + 1)
    if maxReadableBytes == 0 then false
    else (bytes.take maxReadableBytes).any (fun b => b == 0)

/-- The `__DATA,__crash_info` section as returned by `getsectiondata`,
together with the answer of `ksmem_isMemoryReadable(crashInfo, minimalSize)`
(`readable`) and the string pointers of the `crash_info_t` it holds. -/
structure CrashSection where
  size : Nat
  readable : Bool
  version : Nat
  message : Option (List Nat)
  signature : Option (List Nat)
  backtrace : Option (List Nat)
  message2 : Option (List Nat)
deriving DecidableEq

/-- `offsetof(crash_info_t, reserved)` on an LP64 target: a 4-byte `unsigned`
version, 4 bytes of padding (the struct is packed to 8), then four 8-byte
pointers (message, signature, backtrace, message2). -/
def crash_info_minimalSize : Nat := 40

/-! ### Image descriptor -/

/-- `KSBinaryImage` (KSDynamicLinker.h).  `next` is not a field here: in the
sequential model the links are represented by the list structure of the
registry, and in the concurrent model by the heap nodes. -/
structure KSBinaryImage where
  header : Nat
  vmAddress : Nat
  size : Nat
  name : Option (List Char)
  uuid : Option (List Nat)
  slide : Int
  unloaded : Bool
  inCrashReport : Bool
  cpuType : Int
  cpuSubType : Int
  majorVersion : Nat
  minorVersion : Nat
  revisionVersion : Nat
  crashInfoMessage : Option (List Nat)
  crashInfoMessage2 : Option (List Nat)
  crashInfoBacktrace : Option (List Nat)
  crashInfoSignature : Option (List Nat)
deriving DecidableEq

/-- `getCrashInfo(buffer)`: locates the crash-info section (argument `sect`,
`none` when `getsectiondata` returns NULL) and attaches each of the four
strings that individually validates.  Mirrors the early returns of the C
code: section too small, section memory not readable, version not 4 or 5, or
both primary messages NULL each leave the buffer untouched. -/
def getCrashInfo (sect : Option CrashSection) (buffer : KSBinaryImage) : KSBinaryImage :=
  match sect with
  | none => buffer
  | some s =>
    if s.size < crash_info_minimalSize then buffer
    else if !s.readable then buffer
    else if s.version != 4 && s.version != 5 then buffer
    else if s.message.isNone && s.message2.isNone then buffer
    else
      { buffer with
        crashInfoMessage :=
          if isValidCrashInfoMessage s.message then s.message else buffer.crashInfoMessage,
        crashInfoMessage2 :=
          if isValidCrashInfoMessage s.message2 then s.message2 else buffer.crashInfoMessage2,
        crashInfoBacktrace :=
          if isValidCrashInfoMessage s.backtrace then s.backtrace else buffer.crashInfoBacktrace,
        crashInfoSignature :=
          if isValidCrashInfoMessage s.signature then s.signature else buffer.crashInfoSignature }

/-- The answers of the external collaborators for one header:
`path` is `get_path(header)` (dladdr, with the dyld fallbacks), and
`crashSection` is the crash-info section lookup used by `getCrashInfo`. -/
structure Env where
  path : Option (List Char)
  crashSection : Option CrashSection
deriving DecidableEq

/-- Accumulator of the command-table walk of `ksdl_getBinaryImageForHeader`. -/
structure CmdScan where
  imageSize : Nat
  imageVmAddr : Nat
  version : Nat
  uuid : Option (List Nat)
deriving DecidableEq

/-- One iteration of the command loop of `ksdl_getBinaryImageForHeader`:
a `__TEXT` segment command overwrites size/vmaddr, LC_UUID overwrites the
uuid, LC_ID_DYLIB overwrites the version (a `uint32_t` field, hence the
`% 2 ^ 32`). -/
def scanCmd (acc : CmdScan) : LoadCommand → CmdScan
  | .segment segname vmaddr vmsize =>
    if segname = SEG_TEXT then { acc with imageSize := vmsize, imageVmAddr := vmaddr } else acc
  | .segment64 segname vmaddr vmsize =>
    if segname = SEG_TEXT then { acc with imageSize := vmsize, imageVmAddr := vmaddr } else acc
  | .uuidCmd u => { acc with uuid := some u }
  | .idDylib current_version => { acc with version := current_version % 2 ^ 32 }
  | .other => acc

/-- The full command-table walk, starting from the zero-initialized locals
`imageSize = 0`, `imageVmAddr = 0`, `version = 0`, `uuid = NULL`. -/
def scanCmds (cmds : List LoadCommand) : CmdScan :=
  cmds.foldl scanCmd { imageSize := 0, imageVmAddr := 0, version := 0, uuid := none }

/-- The value of the last LC_ID_DYLIB `current_version` in a command table,
if any (later commands overwrite earlier ones in the C loop). -/
def lastIdDylib : List LoadCommand → Option Nat :=
  List.foldl (fun acc c => match c with | .idDylib v => some v | _ => acc) none

/-- The buffer as filled in by the field assignments of
`ksdl_getBinaryImageForHeader`, before `getCrashInfo` runs.  The buffer is
zero-initialized at both call sites (`calloc` in `add_image`, `= { 0 }` in
`remove_image`), so the fields the C code does not assign (`inCrashReport`
and the diagnostic strings) are still zero/NULL here. -/
def rawDescriptor (img : Image) (slide : Int) (imageName : List Char) : KSBinaryImage :=
  let r := scanCmds img.mh.cmds
  { header := img.addr
    vmAddress := r.imageVmAddr
    size := r.imageSize
    name := some imageName
    uuid := r.uuid
    slide := slide
    unloaded := false
    inCrashReport := false
    cpuType := img.mh.cputype
    cpuSubType := img.mh.cpusubtype
    majorVersion := r.version >>> 16
    minorVersion := (r.version >>> 8) &&& 0xff
    revisionVersion := r.version &&& 0xff
    crashInfoMessage := none
    crashInfoMessage2 := none
    crashInfoBacktrace := none
    crashInfoSignature := none }

/-- `ksdl_getBinaryImageForHeader(header, slide, buffer)`.  Returns `none`
exactly where the C returns false: NULL header or unrecognized magic
(`ksdl_first_cmd_after_header` returning 0), or no resolvable name.  The
"sanity check" comparing `imageVmAddr + slide` against the header address
only logs and does not alter the result. -/
def ksdl_getBinaryImageForHeader (header : Option Image) (slide : Int) (env : Env) :
    Option KSBinaryImage :=
  if !ksdl_first_cmd_after_header_ok header then none
  else match header, env.path with
  | some img, some imageName =>
    some (getCrashInfo env.crashSection (rawDescriptor img slide imageName))
  | _, _ => none

/-! ### Sequential registry model

The registry state is the list of descriptors reachable from the head dummy,
in insertion order. -/

/-- `ksdl_get_images()`: the traversal entry point.  In the sequential model
the full traversal from the head dummy is the registry list itself. -/
def ksdl_get_images (images : List KSBinaryImage) : List KSBinaryImage := images

/-- `add_image(header, slide)`: parse, and on success append at the tail.
(An allocation failure of `calloc` also leaves the list unchanged; the model
assumes allocation succeeds.) -/
def add_image (header : Option Image) (slide : Int) (env : Env)
    (images : List KSBinaryImage) : List KSBinaryImage :=
  match ksdl_getBinaryImageForHeader header slide env with
  | none => images
  | some newImage => images ++ [newImage]

/-- `remove_image(header, slide)`: re-parse the header, and on success mark
every descriptor with the matching `vmAddress` as unloaded.  Never unlinks or
frees. -/
def remove_image (header : Option Image) (slide : Int) (env : Env)
    (images : List KSBinaryImage) : List KSBinaryImage :=
  match ksdl_getBinaryImageForHeader header slide env with
  | none => images
  | some existingImage =>
    images.map fun img =>
      if img.vmAddress = existingImage.vmAddress then { img with unloaded := true } else img

/-- A sequence of `add_image` calls. -/
def runAdds (inputs : List (Option Image × Int × Env)) (images : List KSBinaryImage) :
    List KSBinaryImage :=
  inputs.foldl (fun acc inp => add_image inp.1 inp.2.1 inp.2.2 acc) images

/-- `contains_address(img, address)`.  `imageStart + img->size` is computed in
64-bit unsigned arithmetic (`vm_address_t` + `uint64_t`), hence the explicit
`% 2 ^ 64`. -/
def contains_address (img : KSBinaryImage) (address : Nat) : Bool :=
  if img.unloaded then false
  else decide (img.header ≤ address) && decide (address < (img.header + img.size) % 2 ^ 64)

/-- `ksdl_image_at_address(address)`: linear scan from the head, first hit
wins. -/
def ksdl_image_at_address (address : Nat) : List KSBinaryImage → Option KSBinaryImage
  | [] => none
  | img :: rest =>
    if contains_address img address then some img else ksdl_image_at_address address rest

/-- `strstr(haystack, needle) != NULL`: the needle occurs contiguously inside
the haystack (an empty needle always matches). -/
def strstrFound (haystack needle : List Char) : Bool := decide (needle <:+: haystack)

/-- The scan loop of `ksdl_imageNamed`: skip nameless entries, skip unloaded
entries, then compare by `strcmp` equality or `strstr` containment. -/
def imageNamedLoop (imageName : List Char) (exactMatch : Bool) :
    List KSBinaryImage → Option KSBinaryImage
  | [] => none
  | img :: rest =>
    match img.name with
    | none => imageNamedLoop imageName exactMatch rest
    | some n =>
      if img.unloaded then imageNamedLoop imageName exactMatch rest
      else if exactMatch then
        if n = imageName then some img else imageNamedLoop imageName exactMatch rest
      else
        if strstrFound n imageName then some img else imageNamedLoop imageName exactMatch rest

/-- `ksdl_imageNamed(imageName, exactMatch)`: NULL query returns NULL without
scanning. -/
def ksdl_imageNamed (imageName : Option (List Char)) (exactMatch : Bool)
    (images : List KSBinaryImage) : Option KSBinaryImage :=
  match imageName with
  | none => none
  | some nm => imageNamedLoop nm exactMatch images

/-! ### Concurrent insertion model

`add_image` publishes a node in two separate atomic actions:
`oldTail = atomic_exchange(&g_images_tail, newImage)` followed by
`atomic_store(&oldTail->next, newImage)`, and before either of these,
`ksdl_getBinaryImageForHeader` fills in the descriptor's fields one by one.
The model makes each field write, the tail swap and the predecessor link
separate steps of a transition relation, so that any interleaving of any
number of concurrent inserts is a path of the relation.  Heap cells are
addressed by `Nat`; index 0 is the `g_head_dummy` sentinel. -/

/-- The fields of `KSBinaryImage` that `ksdl_getBinaryImageForHeader` and
`calloc` initialize before the node is published. -/
inductive FieldId
  | header | vmAddress | size | name | uuid | slide | unloaded | inCrashReport
  | cpuType | cpuSubType | majorVersion | minorVersion | revisionVersion
  | crashInfoMessage | crashInfoMessage2 | crashInfoBacktrace | crashInfoSignature
deriving DecidableEq

/-- All descriptor fields, in the order the C code assigns them. -/
def allFields : List FieldId :=
  [.header, .vmAddress, .size, .name, .uuid, .slide, .unloaded, .inCrashReport,
   .cpuType, .cpuSubType, .majorVersion, .minorVersion, .revisionVersion,
   .crashInfoMessage, .crashInfoMessage2, .crashInfoBacktrace, .crashInfoSignature]

/-- A heap node: which descriptor fields have been written so far, and the
`next` link (`none` is the NULL link). -/
structure Node where
  written : FieldId → Bool
  next : Option Nat

/-- A freshly `calloc`ed node: no field written yet, `next` NULL. -/
def blankNode : Node := { written := fun _ => false, next := none }

/-- Record that field `f` of a node has been written. -/
def setWritten (n : Node) (f : FieldId) : Node :=
  { n with written := fun g => if g = f then true else n.written g }

/-- Set a node's `next` link. -/
def setNext (n : Node) (j : Nat) : Node := { n with next := some j }

/-- Every descriptor field of the node has been written: the node is not in a
partially-initialized state. -/
def fullyWritten (n : Node) : Prop := ∀ f, n.written f = true

/-- Point update of a `Nat`-indexed store. -/
def upd {α : Type} (f : Nat → α) (i : Nat) (v : α) : Nat → α :=
  fun j => if j = i then v else f j

/-- Program counter of one inserter thread: still writing the listed fields,
or has swapped the tail (recording the previous tail it must link from), or
has completed the link. -/
inductive TState
  | writing (pending : List FieldId)
  | published (pred : Nat)
  | done
deriving DecidableEq

/-- One inserter thread: the heap index of its node and its progress. -/
structure Thread where
  node : Nat
  st : TState

/-- Global state: allocation bound (indices `< alloc` are allocated, 0 is the
dummy head), the heap, `g_images_tail`, the ghost history `pubs` of tail
swaps in order, and the inserter threads `0, ..., tcnt - 1`. -/
structure Sys where
  alloc : Nat
  heap : Nat → Node
  tail : Nat
  pubs : List Nat
  tcnt : Nat
  thr : Nat → Thread

/-- Initial state: only the dummy head exists and no insert has started. -/
def initSys : Sys :=
  { alloc := 1, heap := fun _ => blankNode, tail := 0, pubs := [], tcnt := 0,
    thr := fun _ => { node := 0, st := .done } }

/-- The `next` link of heap cell `i`. -/
def nextOf (s : Sys) (i : Nat) : Option Nat := (s.heap i).next

/-- The state after a new insert starts: a fresh `calloc`ed blank node at
cell `s.alloc` owned by a new thread about to write every field. -/
def spawnSys (s : Sys) : Sys :=
  { alloc := s.alloc + 1, heap := upd s.heap s.alloc blankNode,
    tail := s.tail, pubs := s.pubs, tcnt := s.tcnt + 1,
    thr := upd s.thr s.tcnt { node := s.alloc, st := .writing allFields } }

/-- The state after thread `t` performs one field store of
`ksdl_getBinaryImageForHeader` into its own node. -/
def writeSys (s : Sys) (t : Nat) (f : FieldId) (fs : List FieldId) : Sys :=
  { s with
    heap := upd s.heap (s.thr t).node (setWritten (s.heap ((s.thr t).node)) f),
    thr := upd s.thr t { node := (s.thr t).node, st := .writing fs } }

/-- The state after thread `t` performs the atomic tail exchange
(`atomic_exchange(&g_images_tail, newImage)`): its node becomes the tail and
is appended to the publication history, and the thread remembers the old
tail as the predecessor it must link from. -/
def publishSys (s : Sys) (t : Nat) : Sys :=
  { s with
    tail := (s.thr t).node,
    pubs := s.pubs ++ [(s.thr t).node],
    thr := upd s.thr t { node := (s.thr t).node, st := .published s.tail } }

/-- The state after thread `t` performs the store
`atomic_store(&oldTail->next, newImage)`. -/
def linkSys (s : Sys) (t : Nat) (pred : Nat) : Sys :=
  { s with
    heap := upd s.heap pred (setNext (s.heap pred) ((s.thr t).node)),
    thr := upd s.thr t { node := (s.thr t).node, st := .done } }

/-- Interleaving semantics of concurrent `add_image` calls.  `spawn` starts a
new insert with a fresh `calloc`ed node; `write` performs one field store of
`ksdl_getBinaryImageForHeader`; `publish` is the atomic tail exchange;
`link` is the store to the previous tail's `next`. -/
inductive Step : Sys → Sys → Prop
  | spawn (s : Sys) : Step s (spawnSys s)
  | write (s : Sys) (t : Nat) (f : FieldId) (fs : List FieldId)
      (ht : t < s.tcnt) (hst : (s.thr t).st = .writing (f :: fs)) :
      Step s (writeSys s t f fs)
  | publish (s : Sys) (t : Nat) (ht : t < s.tcnt) (hst : (s.thr t).st = .writing []) :
      Step s (publishSys s t)
  | link (s : Sys) (t : Nat) (pred : Nat) (ht : t < s.tcnt)
      (hst : (s.thr t).st = .published pred) :
      Step s (linkSys s t pred)

/-- States reachable from the empty registry by any interleaving. -/
def Reach (s : Sys) : Prop := Relation.ReflTransGen Step initSys s

/-- Reader traversal with an explicit fuel bound: follow `next` from cell `i`
until NULL, returning the visited cells, or `none` if the walk does not reach
NULL within `fuel` steps.  `some` results therefore certify termination. -/
def travAux (s : Sys) : Nat → Nat → Option (List Nat)
  | fuel, i =>
    match nextOf s i with
    | none => some []
    | some j =>
      match fuel with
      | 0 => none
      | fuel' + 1 => (travAux s fuel' j).map (fun l => j :: l)

/-- A full reader traversal from the dummy head (`ksdl_get_images` and the
subsequent `next` walk), with fuel covering every allocated cell. -/
def traversal (s : Sys) : Option (List Nat) := travAux s s.alloc 0

/-- The dummy head followed by the published nodes in publication order. -/
def chainOf (s : Sys) : List Nat := 0 :: s.pubs

/-- Per-thread protocol invariant.  A thread still writing owns an
unpublished, unlinked node whose remaining fields are exactly the pending
ones; a thread that has swapped the tail sits at a known chain position with
its predecessor's link still NULL; a finished thread's node is published. -/
def ThreadInv (s : Sys) (th : Thread) : Prop :=
  th.node ≠ 0 ∧ th.node < s.alloc ∧
  (match th.st with
   | .writing fs =>
      th.node ∉ s.pubs ∧ nextOf s th.node = none ∧
        ∀ f, f ∉ fs → (s.heap th.node).written f = true
   | .published p =>
      ∃ j, j + 1 < (chainOf s).length ∧ (chainOf s).getD j 0 = p ∧
        (chainOf s).getD (j + 1) 0 = th.node ∧ nextOf s p = none
   | .done => th.node ∈ s.pubs)

/-- Global inductive invariant of the insertion protocol: the published nodes
form a NULL-terminated chain from the dummy head whose links, where set,
follow publication order; every published node is fully initialized; the tail
is the last published node; and the inserter threads own distinct nodes. -/
structure Inv (s : Sys) : Prop where
  alloc_pos : 0 < s.alloc
  pubs_lt : ∀ i ∈ s.pubs, i < s.alloc
  nodup : (chainOf s).Nodup
  tail_eq : s.tail = (chainOf s).getD s.pubs.length 0
  chain_next : ∀ j, j + 1 < (chainOf s).length →
    nextOf s ((chainOf s).getD j 0) = none ∨
      nextOf s ((chainOf s).getD j 0) = some ((chainOf s).getD (j + 1) 0)
  last_next : nextOf s ((chainOf s).getD s.pubs.length 0) = none
  pubs_written : ∀ i ∈ s.pubs, fullyWritten (s.heap i)
  thr_inv : ∀ t, t < s.tcnt → ThreadInv s (s.thr t)
  thr_distinct : ∀ t u, t < s.tcnt → u < s.tcnt → t ≠ u →
    (s.thr t).node ≠ (s.thr u).node

/-! ### One-time initialization model

`ksdl_binary_images_initialize` performs an atomic compare-exchange on
`is_image_list_initialized`; the winner then runs `register_dyld_images` and
`register_for_changes` (collapsed into the single `populated` effect, as they
only touch loader state and perform inserts), while losers return
immediately. -/

/-- Progress of one caller of `ksdl_binary_images_initialize`: not yet
called, returned as a CAS loser, won the CAS but has not yet done the work,
or finished the work. -/
inductive IStage
  | start | loser | won | doneW
deriving DecidableEq

/-- State of the initialization guard: the atomic flag, whether the winner
has performed discovery/registration yet, and each caller's progress. -/
structure ISys where
  flag : Bool
  populated : Bool
  tstate : Nat → IStage

/-- Before any call: flag clear, nothing populated. -/
def initISys : ISys := { flag := false, populated := false, tstate := fun _ => .start }

/-- The state after caller `t` loses the compare-exchange: only its own
program counter changes; flag, registry and population state are untouched. -/
def casLoseResult (s : ISys) (t : Nat) : ISys := { s with tstate := upd s.tstate t .loser }

/-- Steps of concurrent `ksdl_binary_images_initialize` calls. -/
inductive IStep : ISys → ISys → Prop
  | casWin (s : ISys) (t : Nat) (ht : s.tstate t = .start) (hf : s.flag = false) :
      IStep s { flag := true, populated := s.populated, tstate := upd s.tstate t .won }
  | casLose (s : ISys) (t : Nat) (ht : s.tstate t = .start) (hf : s.flag = true) :
      IStep s (casLoseResult s t)
  | work (s : ISys) (t : Nat) (ht : s.tstate t = .won) :
      IStep s { flag := s.flag, populated := true, tstate := upd s.tstate t .doneW }

/-- Reachable states of the initialization guard. -/
def IReach (s : ISys) : Prop := Relation.ReflTransGen IStep initISys s

/-- Caller `t` is the one that won the compare-exchange (and so performs, or
has performed, image discovery and notification registration). -/
def isWinner (s : ISys) (t : Nat) : Prop := s.tstate t = .won ∨ s.tstate t = .doneW

/-- Invariant of the initialization guard: while the flag is clear nobody has
progressed yet, and there is never more than one winner. -/
def IInv (s : ISys) : Prop :=
  (s.flag = false → ∀ t, s.tstate t = .start) ∧
  (∀ t u, isWinner s t → isWinner s u → t = u)

/-! ### Concrete inputs used by witnesses and counterexamples -/

/-- A descriptor with the given header address, size and unloaded flag, all
other fields trivial. -/
def sampleDescriptor (hdr sz : Nat) (unl : Bool) : KSBinaryImage :=
  { header := hdr, vmAddress := 0, size := sz, name := none, uuid := none, slide := 0,
    unloaded := unl, inCrashReport := false, cpuType := 0, cpuSubType := 0,
    majorVersion := 0, minorVersion := 0, revisionVersion := 0,
    crashInfoMessage := none, crashInfoMessage2 := none,
    crashInfoBacktrace := none, crashInfoSignature := none }

/-- A well-formed 64-bit image at address 4096 whose `__TEXT` segment declares
`vmaddr = 4096`, `vmsize = 16`. -/
def imageW : Image :=
  { addr := 4096,
    mh := { magic := MH_MAGIC_64, cputype := 7, cpusubtype := 3, filetype := 2,
            cmds := [.segment64 SEG_TEXT 4096 16] } }

/-- An environment resolving the name "a" and finding no crash-info section. -/
def envW : Env := { path := some ['a'], crashSection := none }

/-- The descriptor `ksdl_getBinaryImageForHeader` produces for `imageW` with
slide 0 under `envW`. -/
def descW : KSBinaryImage :=
  { header := 4096, vmAddress := 4096, size := 16, name := some ['a'], uuid := none,
    slide := 0, unloaded := false, inCrashReport := false, cpuType := 7, cpuSubType := 3,
    majorVersion := 0, minorVersion := 0, revisionVersion := 0,
    crashInfoMessage := none, crashInfoMessage2 := none,
    crashInfoBacktrace := none, crashInfoSignature := none }

/-- An image declaring an LC_ID_DYLIB with `current_version = 0x00012345`. -/
def imageV : Image :=
  { addr := 4096,
    mh := { magic := MH_MAGIC_64, cputype := 7, cpusubtype := 3, filetype := 6,
            cmds := [.segment64 SEG_TEXT 4096 16, .idDylib 0x00012345] } }

/-- The descriptor produced for `imageV` with slide 0 under `envW`. -/
def descV : KSBinaryImage :=
  { header := 4096, vmAddress := 4096, size := 16, name := some ['a'], uuid := none,
    slide := 0, unloaded := false, inCrashReport := false, cpuType := 7, cpuSubType := 3,
    majorVersion := 0x1, minorVersion := 0x23, revisionVersion := 0x45,
    crashInfoMessage := none, crashInfoMessage2 := none,
    crashInfoBacktrace := none, crashInfoSignature := none }

/-- A registry entry named "ab", loaded. -/
def namedW : KSBinaryImage :=
  let base := sampleDescriptor 4096 16 false
  { base with name := some ['a', 'b'] }

/-- A guard state in which the flag is already set but nothing is populated
yet (the CAS winner has not finished), and nobody else has called. -/
def iW : ISys := { flag := true, populated := false, tstate := fun _ => .start }

/-- The guard state after caller 0 wins the CAS but before it performs any
discovery or registration work. -/
def iMid : ISys :=
  { flag := true, populated := false, tstate := upd (fun _ => IStage.start) 0 IStage.won }

/-- A crash-info section of version 4 whose `message` points at a 4097-byte
readable buffer with no NUL, and whose `message2` is a valid string. -/
def sectW : CrashSection :=
  { size := 40, readable := true, version := 4,
    message := some (List.replicate 4097 65), signature := none, backtrace := none,
    message2 := some [104, 105, 0] }

/-- A crash-info section with an unsupported version (3). -/
def sectBad : CrashSection :=
  { size := 40, readable := true, version := 3,
    message := some [0], signature := none, backtrace := none, message2 := none }

/-! ## Helper lemmas -/

/-- `contains_address` as a boolean conjunction. -/
theorem contains_address_eq (img : KSBinaryImage) (address : Nat) :
    contains_address img address =
      (!img.unloaded && (decide (img.header ≤ address) &&
        decide (address < (img.header + img.size) % 2 ^ 64))) := by
  cases h : img.unloaded <;> simp [contains_address, h]

/-- The scan of `ksdl_image_at_address` is a first-match search. -/
theorem image_at_address_find (address : Nat) (images : List KSBinaryImage) :
    ksdl_image_at_address address images =
      images.find? (fun img => contains_address img address) := by
  induction images with
  | nil => rfl
  | cons img rest ih =>
    by_cases h : contains_address img address = true
    · simp [ksdl_image_at_address, h]
    · simp only [Bool.not_eq_true] at h
      simp [ksdl_image_at_address, h, ih]

/-- Any hit of `ksdl_image_at_address` satisfies `contains_address`. -/
theorem image_at_address_sat {address : Nat} {images : List KSBinaryImage}
    {r : KSBinaryImage} (h : ksdl_image_at_address address images = some r) :
    contains_address r address = true := by
  rw [image_at_address_find] at h
  have hp := List.find?_some h
  simpa using hp

/-- A `contains_address` hit is never unloaded. -/
theorem contains_not_unloaded {img : KSBinaryImage} {address : Nat}
    (h : contains_address img address = true) : img.unloaded = false := by
  by_contra hc
  simp only [Bool.not_eq_false] at hc
  simp [contains_address, hc] at h

/-- Searching a NUL in the first `k` bytes, as an existential. -/
theorem take_any_zero_iff (l : List Nat) (k : Nat) :
    ((l.take k).any (fun b => b == 0) = true) ↔
      ∃ i, i < k ∧ i < l.length ∧ l.getD i 1 = 0 := by
  induction l generalizing k with
  | nil => simp
  | cons a l ih =>
    cases k with
    | zero => simp
    | succ k =>
      simp only [List.take_succ_cons, List.any_cons, Bool.or_eq_true, beq_iff_eq, ih]
      constructor
      · rintro (h | ⟨i, h1, h2, h3⟩)
        · exact ⟨0, by omega, by simp, by simpa using h⟩
        · exact ⟨i + 1, by omega, by simpa using h2, by simpa using h3⟩
      · rintro ⟨i, h1, h2, h3⟩
        cases i with
        | zero => exact Or.inl (by simpa using h3)
        | succ i =>
          exact Or.inr ⟨i, by omega, by simpa using h2, by simpa using h3⟩

/-- `List.any` over a replicated element whose test fails is false. -/
theorem replicate_any_false {α : Type} (n : Nat) (a : α) (p : α → Bool) (h : p a = false) :
    (List.replicate n a).any p = false := by
  induction n with
  | zero => rfl
  | succ n ih => simp [List.replicate_succ, ih, h]

/-- A 4097-byte readable buffer containing no NUL fails validation. -/
theorem isValid_replicate_false :
    isValidCrashInfoMessage
      (some (List.replicate (KSDL_MaxCrashInfoStringLength + 1) 65)) = false := by
  simp only [isValidCrashInfoMessage, List.length_replicate, Nat.min_self,
    KSDL_MaxCrashInfoStringLength, List.take_replicate]
  rw [if_neg (by decide)]
  exact replicate_any_false _ _ _ (by decide)

/-- `getCrashInfo` touches only the four diagnostic string fields. -/
theorem getCrashInfo_preserves (sect : Option CrashSection) (b : KSBinaryImage) :
    (getCrashInfo sect b).header = b.header ∧
    (getCrashInfo sect b).vmAddress = b.vmAddress ∧
    (getCrashInfo sect b).size = b.size ∧
    (getCrashInfo sect b).name = b.name ∧
    (getCrashInfo sect b).uuid = b.uuid ∧
    (getCrashInfo sect b).slide = b.slide ∧
    (getCrashInfo sect b).unloaded = b.unloaded ∧
    (getCrashInfo sect b).cpuType = b.cpuType ∧
    (getCrashInfo sect b).cpuSubType = b.cpuSubType ∧
    (getCrashInfo sect b).majorVersion = b.majorVersion ∧
    (getCrashInfo sect b).minorVersion = b.minorVersion ∧
    (getCrashInfo sect b).revisionVersion = b.revisionVersion := by
  cases sect with
  | none => simp [getCrashInfo]
  | some s =>
    unfold getCrashInfo
    repeat' split
    all_goals simp

/-- Starting the LC_ID_DYLIB fold from `o` is the same as folding from `none`
and falling back to `o`. -/
theorem lastIdDylib_gen (cmds : List LoadCommand) (o : Option Nat) :
    cmds.foldl (fun acc c => match c with | LoadCommand.idDylib v => some v | _ => acc) o =
      Option.or (lastIdDylib cmds) o := by
  induction cmds generalizing o with
  | nil => simp [lastIdDylib]
  | cons c cmds ih =>
    show List.foldl _ _ cmds = _
    rw [ih]
    have hl : lastIdDylib (c :: cmds) =
        Option.or (lastIdDylib cmds)
          (match c with | LoadCommand.idDylib v => some v | _ => none) := by
      show List.foldl _ _ cmds = _
      rw [ih]
    rw [hl, Option.or_assoc]
    cases c <;> rfl

/-- The `version` accumulated by the command walk is the last LC_ID_DYLIB
`current_version` (reduced to 32 bits), or the starting value if none. -/
theorem scan_version (cmds : List LoadCommand) (acc : CmdScan) :
    (cmds.foldl scanCmd acc).version =
      (match lastIdDylib cmds with
       | some v => v % 2 ^ 32
       | none => acc.version) := by
  induction cmds generalizing acc with
  | nil => rfl
  | cons c cmds ih =>
    rw [List.foldl_cons, ih]
    have hl : lastIdDylib (c :: cmds) =
        Option.or (lastIdDylib cmds)
          (match c with | LoadCommand.idDylib v => some v | _ => none) := by
      show List.foldl _ _ cmds = _
      rw [lastIdDylib_gen]
    rw [hl]
    cases hcm : lastIdDylib cmds with
    | some w => rfl
    | none =>
      cases c with
      | segment segname vmaddr vmsize => simp [scanCmd]; split <;> rfl
      | segment64 segname vmaddr vmsize => simp [scanCmd]; split <;> rfl
      | uuidCmd u => rfl
      | idDylib v => rfl
      | other => rfl

/-- Masking with 0xff is reduction mod 2^8. -/
theorem and_255_eq_mod (n : Nat) : n &&& 0xff = n % 2 ^ 8 :=
  Nat.and_pow_two_sub_one_eq_mod n 8

/-- The three bit-field extractions the C code performs on the (32-bit)
version value, in terms of division and remainder. -/
theorem version_extract (v : Nat) :
    (v % 2 ^ 32) >>> 16 = v / 2 ^ 16 % 2 ^ 16 ∧
    ((v % 2 ^ 32) >>> 8) &&& 0xff = v / 2 ^ 8 % 2 ^ 8 ∧
    (v % 2 ^ 32) &&& 0xff = v % 2 ^ 8 := by
  refine ⟨?_, ?_, ?_⟩
  · rw [Nat.shiftRight_eq_div_pow]
    have h : (2 : Nat) ^ 32 = 2 ^ 16 * 2 ^ 16 := by norm_num
    rw [h, Nat.mod_mul_right_div_self]
  · rw [Nat.shiftRight_eq_div_pow, and_255_eq_mod]
    have h : (2 : Nat) ^ 32 = 2 ^ 8 * 2 ^ 24 := by norm_num
    rw [h, Nat.mod_mul_right_div_self]
    exact Nat.mod_mod_of_dvd _ (by norm_num)
  · rw [and_255_eq_mod]
    exact Nat.mod_mod_of_dvd v (by norm_num)

/-- Validation of `some bytes`, characterized: some NUL occurs at an index of
at most `KSDL_MaxCrashInfoStringLength` within the readable bytes. -/
theorem isValid_some_iff (bytes : List Nat) :
    isValidCrashInfoMessage (some bytes) = true ↔
      ∃ i, i ≤ KSDL_MaxCrashInfoStringLength ∧ i < bytes.length ∧ bytes.getD i 1 = 0 := by
  simp only [isValidCrashInfoMessage]
  split
  next h0 =>
    simp only [beq_iff_eq, Nat.min_eq_zero_iff] at h0
    constructor
    · intro h; exact absurd h (by simp)
    · rintro ⟨i, _, hi2, _⟩
      exfalso
      rcases h0 with h | h
      · omega
      · simp [KSDL_MaxCrashInfoStringLength] at h
  next h0 =>
    rw [take_any_zero_iff]
    constructor
    · rintro ⟨i, hik, hil, hz⟩
      refine ⟨i, ?_, hil, hz⟩
      simp only [KSDL_MaxCrashInfoStringLength] at hik ⊢
      omega
    · rintro ⟨i, hik, hil, hz⟩
      refine ⟨i, ?_, hil, hz⟩
      simp only [KSDL_MaxCrashInfoStringLength] at hik ⊢
      omega

/-- A "skipped" crash-info section (undersized, unreadable, unsupported
version, or both primary messages NULL) leaves the buffer untouched. -/
theorem getCrashInfo_skip (s : CrashSection) (b : KSBinaryImage)
    (h : (s.version ≠ 4 ∧ s.version ≠ 5) ∨ s.size < crash_info_minimalSize ∨
      s.readable = false ∨ (s.message = none ∧ s.message2 = none)) :
    getCrashInfo (some s) b = b := by
  by_cases h1 : s.size < crash_info_minimalSize
  · simp [getCrashInfo, h1]
  · cases hr : s.readable with
    | false => simp [getCrashInfo, h1, hr]
    | true =>
      by_cases h3 : (s.version != 4 && s.version != 5) = true
      · simp [getCrashInfo, h1, hr, h3]
      · by_cases h4 : (s.message.isNone && s.message2.isNone) = true
        · simp [getCrashInfo, h1, hr, h3, h4]
        · exfalso
          rcases h with ⟨ha, hb⟩ | hc | hd | ⟨he, hf⟩
          · exact h3 (by simp [ha, hb])
          · exact h1 hc
          · rw [hd] at hr; exact absurd hr (by simp)
          · exact h4 (by simp [he, hf])

/-- A processed crash-info section updates exactly the four diagnostic string
fields, each according to its own validation. -/
theorem getCrashInfo_good (s : CrashSection) (b : KSBinaryImage)
    (h1 : ¬ s.size < crash_info_minimalSize) (h2 : s.readable = true)
    (h3 : s.version = 4 ∨ s.version = 5)
    (h4 : ¬ (s.message = none ∧ s.message2 = none)) :
    getCrashInfo (some s) b =
      { b with
        crashInfoMessage :=
          if isValidCrashInfoMessage s.message then s.message else b.crashInfoMessage,
        crashInfoMessage2 :=
          if isValidCrashInfoMessage s.message2 then s.message2 else b.crashInfoMessage2,
        crashInfoBacktrace :=
          if isValidCrashInfoMessage s.backtrace then s.backtrace else b.crashInfoBacktrace,
        crashInfoSignature :=
          if isValidCrashInfoMessage s.signature then s.signature else b.crashInfoSignature } := by
  have hv : (s.version != 4 && s.version != 5) = false := by
    rcases h3 with h | h <;> simp [h]
  have hm : (s.message.isNone && s.message2.isNone) = false := by
    cases hm1 : s.message <;> cases hm2 : s.message2 <;> simp_all
  simp [getCrashInfo, h1, h2, hv, hm]

/-! ## Claims -/

/-- Claim C4: `ksdl_getBinaryImageForHeader` returns failure if and only if
the header's magic is not one of the recognized 32/64-bit values (including a
null header) or no name/path can be resolved for the image; in every other
case it succeeds and produces a descriptor, even when the code segment's
declared address plus displacement disagrees with the header's runtime
address (that mismatch is logged only, never fatal). -/
theorem claimC4_parse_failure_iff :
    (∀ (header : Option Image) (slide : Int) (env : Env),
      (ksdl_getBinaryImageForHeader header slide env).isSome = true ↔
        (∃ img, header = some img ∧ magic_recognized img.mh.magic = true) ∧
          env.path.isSome = true) ∧
    (∀ (img : Image) (slide : Int) (env : Env),
      magic_recognized img.mh.magic = true → env.path.isSome = true →
      ((scanCmds img.mh.cmds).imageVmAddr : Int) + slide ≠ (img.addr : Int) →
      (ksdl_getBinaryImageForHeader (some img) slide env).isSome = true) := by
  constructor
  · intro header slide env
    cases header with
    | none => simp [ksdl_getBinaryImageForHeader, ksdl_first_cmd_after_header_ok]
    | some img =>
      cases hm : magic_recognized img.mh.magic with
      | false =>
        simp [ksdl_getBinaryImageForHeader, ksdl_first_cmd_after_header_ok, hm]
      | true =>
        cases hp : env.path with
        | none =>
          simp [ksdl_getBinaryImageForHeader, ksdl_first_cmd_after_header_ok, hm, hp]
        | some nm =>
          simp [ksdl_getBinaryImageForHeader, ksdl_first_cmd_after_header_ok, hm, hp]
  · intro img slide env hm hp _
    cases hpp : env.path with
    | none => rw [hpp] at hp; simp at hp
    | some nm =>
      simp [ksdl_getBinaryImageForHeader, ksdl_first_cmd_after_header_ok, hm, hpp]

/-- Witness for C4: a concrete image whose declared `__TEXT` address plus
slide differs from the runtime header address still parses. -/
theorem claimC4_witness :
    (ksdl_getBinaryImageForHeader (some imageW) 5 envW).isSome = true :=
  claimC4_parse_failure_iff.2 imageW 5 envW (by decide) (by decide) (by decide)

/-- Claim C5 counterexample: the claim's mathematical half-open range
`[header, header + size)` disagrees with the code when `header + size`
exceeds `2 ^ 64`.  Here the first (and only) descriptor is loaded and its
mathematical range contains the queried address, yet the scan returns no
match, because `imageStart + img->size` is computed in wrapping 64-bit
arithmetic. -/
theorem claimC5_counterexample :
    (sampleDescriptor (2 ^ 64 - 1) 2 false).unloaded = false ∧
    (sampleDescriptor (2 ^ 64 - 1) 2 false).header ≤ 2 ^ 64 - 1 ∧
    2 ^ 64 - 1 < (sampleDescriptor (2 ^ 64 - 1) 2 false).header +
      (sampleDescriptor (2 ^ 64 - 1) 2 false).size ∧
    ksdl_image_at_address (2 ^ 64 - 1) [sampleDescriptor (2 ^ 64 - 1) 2 false] = none := by
  refine ⟨rfl, le_refl _, by norm_num [sampleDescriptor], by decide⟩

/-- Claim C5 (amended): `ksdl_image_at_address` returns the first descriptor
in insertion order that is not unloaded and whose half-open range with end
`(header + size) mod 2 ^ 64` contains the address.  When `header + size`
does not reach `2 ^ 64`, that is the range `[header, header + size)`: the
base address matches whenever the size is nonzero, the address
`header + size` never matches, and no unloaded descriptor ever matches. -/
theorem claimC5_image_at_address_spec :
    (∀ (images : List KSBinaryImage) (address : Nat),
      ksdl_image_at_address address images =
        images.find? (fun img => !img.unloaded &&
          (decide (img.header ≤ address) &&
            decide (address < (img.header + img.size) % 2 ^ 64)))) ∧
    (∀ img : KSBinaryImage, img.unloaded = true →
      ∀ address, contains_address img address = false) ∧
    (∀ img : KSBinaryImage, img.unloaded = false → 0 < img.size →
      img.header + img.size < 2 ^ 64 → contains_address img img.header = true) ∧
    (∀ img : KSBinaryImage, contains_address img (img.header + img.size) = false) := by
  refine ⟨?_, ?_, ?_, ?_⟩
  · intro images address
    rw [image_at_address_find]
    congr 1
    funext img
    exact contains_address_eq img address
  · intro img h address
    simp [contains_address, h]
  · intro img h hs hlt
    rw [contains_address_eq, h]
    simp only [Bool.not_false, Bool.true_and, Bool.and_eq_true, decide_eq_true_eq]
    refine ⟨le_refl _, ?_⟩
    rw [Nat.mod_eq_of_lt hlt]
    omega
  · intro img
    have hd : decide (img.header + img.size < (img.header + img.size) % 2 ^ 64) = false :=
      decide_eq_false (Nat.not_lt.mpr (Nat.mod_le _ _))
    rw [contains_address_eq]
    simp [hd]
    exact fun _ => Nat.mod_le _ _

/-- Witness for C5 (amended): a loaded descriptor at 4096 of size 16 matches
its own base address. -/
theorem claimC5_witness :
    contains_address (sampleDescriptor 4096 16 false) 4096 = true :=
  claimC5_image_at_address_spec.2.2.1 (sampleDescriptor 4096 16 false) rfl
    (by decide) (by decide)

/-- Claim C8: `isValidCrashInfoMessage` accepts a candidate pointer iff it is
non-null and a NUL occurs among its readable bytes at an index of at most the
fixed maximum 4096 (the code probes at most 4097 readable bytes); a pointer
with zero readable bytes is rejected, a 4097-byte readable NUL-free buffer is
rejected, and a rejected `message` field is left unset by `getCrashInfo`. -/
theorem claimC8_isValidCrashInfoMessage_spec :
    (∀ p : Option (List Nat), isValidCrashInfoMessage p = true ↔
      ∃ bytes, p = some bytes ∧
        ∃ i, i ≤ KSDL_MaxCrashInfoStringLength ∧ i < bytes.length ∧ bytes.getD i 1 = 0) ∧
    isValidCrashInfoMessage none = false ∧
    isValidCrashInfoMessage (some []) = false ∧
    isValidCrashInfoMessage
      (some (List.replicate (KSDL_MaxCrashInfoStringLength + 1) 65)) = false ∧
    (∀ (s : CrashSection) (b : KSBinaryImage), isValidCrashInfoMessage s.message = false →
      (getCrashInfo (some s) b).crashInfoMessage = b.crashInfoMessage) := by
  refine ⟨?_, rfl, by decide, isValid_replicate_false, ?_⟩
  · intro p
    cases p with
    | none => simp [isValidCrashInfoMessage]
    | some bytes => rw [isValid_some_iff]; simp
  · intro s b hv
    by_cases h1 : s.size < crash_info_minimalSize
    · simp [getCrashInfo, h1]
    · by_cases h2 : s.readable = true
      · by_cases h3 : (s.version != 4 && s.version != 5) = true
        · simp [getCrashInfo, h1, h2, h3]
        · by_cases h4 : (s.message.isNone && s.message2.isNone) = true
          · simp [getCrashInfo, h1, h2, h3, h4]
          · simp [getCrashInfo, h1, h2, h3, h4, hv]
      · simp [getCrashInfo, h1, h2]

/-- Witness for C8: the 4097-byte unterminated `message` of `sectW` is left
unset on the descriptor. -/
theorem claimC8_witness :
    (getCrashInfo (some sectW) descW).crashInfoMessage = descW.crashInfoMessage :=
  claimC8_isValidCrashInfoMessage_spec.2.2.2.2 sectW descW isValid_replicate_false

/-- Claim C9: for an image declaring an LC_ID_DYLIB command, the descriptor's
version triple is bit-extracted from the (32-bit) `current_version` value:
major is bits 31-16, minor is bits 15-8, revision is bits 7-0; with no such
command all three are zero. -/
theorem claimC9_version_bits (img : Image) (slide : Int) (env : Env) (b : KSBinaryImage)
    (hparse : ksdl_getBinaryImageForHeader (some img) slide env = some b) :
    (∀ v, lastIdDylib img.mh.cmds = some v →
      b.majorVersion = v / 2 ^ 16 % 2 ^ 16 ∧
      b.minorVersion = v / 2 ^ 8 % 2 ^ 8 ∧
      b.revisionVersion = v % 2 ^ 8) ∧
    (lastIdDylib img.mh.cmds = none →
      b.majorVersion = 0 ∧ b.minorVersion = 0 ∧ b.revisionVersion = 0) := by
  cases hm : magic_recognized img.mh.magic with
  | false =>
    simp [ksdl_getBinaryImageForHeader, ksdl_first_cmd_after_header_ok, hm] at hparse
  | true =>
    cases hp : env.path with
    | none =>
      simp [ksdl_getBinaryImageForHeader, ksdl_first_cmd_after_header_ok, hm, hp] at hparse
    | some nm =>
      simp only [ksdl_getBinaryImageForHeader, ksdl_first_cmd_after_header_ok, hm,
        Bool.not_true, Bool.false_eq_true, if_false, hp, Option.some.injEq] at hparse
      obtain ⟨-, -, -, -, -, -, -, -, -, hmaj, hmin, hrev⟩ :=
        getCrashInfo_preserves env.crashSection (rawDescriptor img slide nm)
      rw [hparse] at hmaj hmin hrev
      have hv := scan_version img.mh.cmds
        { imageSize := 0, imageVmAddr := 0, version := 0, uuid := none }
      constructor
      · intro v hsome
        rw [hsome] at hv
        simp only [] at hv
        refine ⟨?_, ?_, ?_⟩
        · rw [hmaj]
          show (scanCmds img.mh.cmds).version >>> 16 = _
          rw [show (scanCmds img.mh.cmds).version = v % 2 ^ 32 from hv]
          exact (version_extract v).1
        · rw [hmin]
          show ((scanCmds img.mh.cmds).version >>> 8) &&& 0xff = _
          rw [show (scanCmds img.mh.cmds).version = v % 2 ^ 32 from hv]
          exact (version_extract v).2.1
        · rw [hrev]
          show (scanCmds img.mh.cmds).version &&& 0xff = _
          rw [show (scanCmds img.mh.cmds).version = v % 2 ^ 32 from hv]
          exact (version_extract v).2.2
      · intro hnone
        rw [hnone] at hv
        simp only [] at hv
        refine ⟨?_, ?_, ?_⟩
        · rw [hmaj]
          show (scanCmds img.mh.cmds).version >>> 16 = _
          rw [show (scanCmds img.mh.cmds).version = 0 from hv]
          decide
        · rw [hmin]
          show ((scanCmds img.mh.cmds).version >>> 8) &&& 0xff = _
          rw [show (scanCmds img.mh.cmds).version = 0 from hv]
          decide
        · rw [hrev]
          show (scanCmds img.mh.cmds).version &&& 0xff = _
          rw [show (scanCmds img.mh.cmds).version = 0 from hv]
          decide

/-- Witness for C9: `imageV` declares `current_version = 0x12345`, giving
major 1, minor 0x23, revision 0x45. -/
theorem claimC9_witness :
    descV.majorVersion = 0x12345 / 2 ^ 16 % 2 ^ 16 ∧
    descV.minorVersion = 0x12345 / 2 ^ 8 % 2 ^ 8 ∧
    descV.revisionVersion = 0x12345 % 2 ^ 8 :=
  (claimC9_version_bits imageV 0 envW descV (by decide)).1 0x12345 rfl

/-- Claim C2: after a successful add of a header followed by a remove of the
same header, the descriptor remains reachable by full traversal from the head
with `unloaded = true`; the removal only flips `unloaded` flags (it never
unlinks or frees), and `ksdl_image_at_address` never returns the marked
descriptor (nor any unloaded one) for any address. -/
theorem claimC2_add_remove_soft_unload (images : List KSBinaryImage)
    (header : Option Image) (slide : Int) (env : Env) (d : KSBinaryImage)
    (hparse : ksdl_getBinaryImageForHeader header slide env = some d) :
    (remove_image header slide env (add_image header slide env images)).length =
      (add_image header slide env images).length ∧
    { d with unloaded := true } ∈
      ksdl_get_images (remove_image header slide env (add_image header slide env images)) ∧
    (∀ i : Nat, (remove_image header slide env (add_image header slide env images))[i]? =
      ((add_image header slide env images)[i]?).map (fun img =>
        if img.vmAddress = d.vmAddress then { img with unloaded := true } else img)) ∧
    (∀ address r,
      ksdl_image_at_address address
        (remove_image header slide env (add_image header slide env images)) = some r →
      r.unloaded = false) ∧
    (∀ address,
      ksdl_image_at_address address
        (remove_image header slide env (add_image header slide env images)) ≠
        some { d with unloaded := true }) := by
  have hadd : add_image header slide env images = images ++ [d] := by
    rw [add_image, hparse]
  have hrem : remove_image header slide env (add_image header slide env images) =
      (images ++ [d]).map (fun img =>
        if img.vmAddress = d.vmAddress then { img with unloaded := true } else img) := by
    rw [remove_image, hparse, hadd]
  refine ⟨?_, ?_, ?_, ?_, ?_⟩
  · rw [hrem, hadd]
    simp
  · rw [hrem, ksdl_get_images, List.map_append]
    refine List.mem_append_right _ ?_
    simp
  · intro i
    rw [hrem, hadd, List.getElem?_map]
  · intro address r h
    exact contains_not_unloaded (image_at_address_sat h)
  · intro address h
    have hc := contains_not_unloaded (image_at_address_sat h)
    simp at hc

/-- Witness for C2: adding and removing `imageW` leaves its marked descriptor
reachable by traversal. -/
theorem claimC2_witness :
    { descW with unloaded := true } ∈
      ksdl_get_images (remove_image (some imageW) 0 envW (add_image (some imageW) 0 envW [])) :=
  (claimC2_add_remove_soft_unload [] (some imageW) 0 envW descW (by decide)).2.1

/-- Claim C6: `ksdl_imageNamed` with a non-null query returns the first
descriptor in insertion order having a non-null name, not unloaded, and whose
name equals the query (exact match) or contains it as a substring (otherwise),
or none when no such descriptor exists; under exact matching the returned
descriptor's name is exactly the query, so a query that is a strict substring
of a longer name never matches that descriptor. -/
theorem claimC6_imageNamed_spec (images : List KSBinaryImage) (nm : List Char) :
    (∀ exactMatch,
      ksdl_imageNamed (some nm) exactMatch images =
        images.find? (fun img =>
          match img.name with
          | none => false
          | some n => !img.unloaded &&
              (if exactMatch then decide (n = nm) else decide (nm <:+: n)))) ∧
    (∀ r, ksdl_imageNamed (some nm) true images = some r → r.name = some nm) := by
  have hfind : ∀ exactMatch,
      ksdl_imageNamed (some nm) exactMatch images =
        images.find? (fun img =>
          match img.name with
          | none => false
          | some n => !img.unloaded &&
              (if exactMatch then decide (n = nm) else decide (nm <:+: n))) := by
    intro ex
    show imageNamedLoop nm ex images = _
    induction images with
    | nil => rfl
    | cons img rest ih =>
      cases hn : img.name with
      | none => simp [imageNamedLoop, hn, ih, List.find?_cons]
      | some n =>
        cases hu : img.unloaded with
        | true => simp [imageNamedLoop, hn, hu, ih, List.find?_cons]
        | false =>
          cases ex with
          | true =>
            by_cases he : n = nm
            · simp [imageNamedLoop, hn, hu, he, List.find?_cons]
            · simp [imageNamedLoop, hn, hu, he, ih, List.find?_cons]
          | false =>
            by_cases hs : strstrFound n nm = true
            · simp only [strstrFound, decide_eq_true_eq] at hs
              simp [imageNamedLoop, strstrFound, hn, hu, hs, List.find?_cons]
            · simp only [strstrFound, decide_eq_true_eq] at hs
              simp [imageNamedLoop, strstrFound, hn, hu, hs, ih, List.find?_cons]
  refine ⟨hfind, ?_⟩
  intro r h
  rw [hfind true] at h
  have hp := List.find?_some h
  cases hn : r.name with
  | none => simp only [hn] at hp; simp at hp
  | some n =>
    simp only [hn] at hp
    simp at hp
    rw [hp.2]

/-- Witness for C6: an exact-match hit's name is exactly the query. -/
theorem claimC6_witness : namedW.name = some ['a', 'b'] :=
  (claimC6_imageNamed_spec [namedW] ['a', 'b']).2 namedW (by decide)

/-- Claim C7: when header and name parse successfully, a crash-info section
never causes descriptor construction to fail; an unsupported version,
undersized or unreadable section, or one with both primary messages null,
yields the descriptor with no diagnostic strings set; and each diagnostic
string field is set or omitted based only on its own validation, leaving the
rest of the descriptor intact. -/
theorem claimC7_crashinfo_never_fatal (img : Image) (slide : Int) (path : List Char)
    (hmagic : magic_recognized img.mh.magic = true) :
    (∀ sect, (ksdl_getBinaryImageForHeader (some img) slide
        { path := some path, crashSection := sect }).isSome = true) ∧
    (∀ s : CrashSection,
      (s.version ≠ 4 ∧ s.version ≠ 5) ∨ s.size < crash_info_minimalSize ∨
        s.readable = false ∨ (s.message = none ∧ s.message2 = none) →
      ksdl_getBinaryImageForHeader (some img) slide
          { path := some path, crashSection := some s } =
        some (rawDescriptor img slide path)) ∧
    ((rawDescriptor img slide path).crashInfoMessage = none ∧
      (rawDescriptor img slide path).crashInfoMessage2 = none ∧
      (rawDescriptor img slide path).crashInfoBacktrace = none ∧
      (rawDescriptor img slide path).crashInfoSignature = none) ∧
    (∀ s : CrashSection, ¬ s.size < crash_info_minimalSize → s.readable = true →
      (s.version = 4 ∨ s.version = 5) → ¬ (s.message = none ∧ s.message2 = none) →
      ∀ b, ksdl_getBinaryImageForHeader (some img) slide
          { path := some path, crashSection := some s } = some b →
        b.crashInfoMessage =
          (if isValidCrashInfoMessage s.message then s.message else none) ∧
        b.crashInfoMessage2 =
          (if isValidCrashInfoMessage s.message2 then s.message2 else none) ∧
        b.crashInfoBacktrace =
          (if isValidCrashInfoMessage s.backtrace then s.backtrace else none) ∧
        b.crashInfoSignature =
          (if isValidCrashInfoMessage s.signature then s.signature else none)) := by
  have hparse_eq : ∀ sect, ksdl_getBinaryImageForHeader (some img) slide
      { path := some path, crashSection := sect } =
      some (getCrashInfo sect (rawDescriptor img slide path)) := by
    intro sect
    simp [ksdl_getBinaryImageForHeader, ksdl_first_cmd_after_header_ok, hmagic]
  refine ⟨?_, ?_, ?_, ?_⟩
  · intro sect
    rw [hparse_eq]
    rfl
  · intro s hbad
    rw [hparse_eq, getCrashInfo_skip s _ hbad]
  · simp [rawDescriptor]
  · intro s h1 h2 h3 h4 b hb
    rw [hparse_eq, getCrashInfo_good s _ h1 h2 h3 h4] at hb
    injection hb with hb
    rw [← hb]
    simp [rawDescriptor]

/-- Witness for C7: a version-3 section yields the plain descriptor. -/
theorem claimC7_witness :
    ksdl_getBinaryImageForHeader (some imageW) 0
        { path := some ['a'], crashSection := some sectBad } =
      some (rawDescriptor imageW 0 ['a']) :=
  (claimC7_crashinfo_never_fatal imageW 0 ['a'] (by decide)).2.1 sectBad
    (Or.inl (by decide))

/-! ## One-time initialization -/

/-- Point update reads back the written value. -/
theorem upd_same {α : Type} (f : Nat → α) (i : Nat) (v : α) : upd f i v i = v := by
  simp [upd]

/-- Point update leaves other cells unchanged. -/
theorem upd_other {α : Type} (f : Nat → α) (i j : Nat) (v : α) (h : j ≠ i) :
    upd f i v j = f j := by
  simp [upd, h]

/-- The initial guard state satisfies the guard invariant. -/
theorem iinv_init : IInv initISys := by
  constructor
  · intro _ t; rfl
  · intro t u ht _
    rcases ht with h | h <;> exact absurd h (by simp [initISys])

/-- Every guard step preserves the guard invariant. -/
theorem iinv_step {s s' : ISys} (hs : IInv s) (h : IStep s s') : IInv s' := by
  obtain ⟨hflag, huniq⟩ := hs
  cases h with
  | casWin t ht hf =>
    refine ⟨fun hfl => absurd hfl (by simp), ?_⟩
    have hstart := hflag hf
    have key : ∀ u, isWinner
        { flag := true, populated := s.populated, tstate := upd s.tstate t .won } u →
        u = t := by
      intro u hu
      by_cases hut : u = t
      · exact hut
      · exfalso
        simp only [isWinner] at hu
        rcases hu with h1 | h1 <;>
          rw [show upd s.tstate t IStage.won u = s.tstate u from upd_other _ _ _ _ hut,
            hstart u] at h1 <;>
          exact absurd h1 (by decide)
    intro a b ha hb
    rw [key a ha, key b hb]
  | casLose t ht hf =>
    constructor
    · intro hfl
      rw [show (casLoseResult s t).flag = s.flag from rfl, hf] at hfl
      exact absurd hfl (by decide)
    · have key : ∀ u, isWinner (casLoseResult s t) u → isWinner s u := by
        intro u hu
        simp only [isWinner, casLoseResult] at hu
        by_cases hut : u = t
        · exfalso
          subst hut
          rcases hu with h1 | h1 <;> rw [upd_same] at h1 <;> exact absurd h1 (by decide)
        · rw [upd_other _ _ _ _ hut] at hu
          exact hu
      intro a b ha hb
      exact huniq a b (key a ha) (key b hb)
  | work t ht =>
    constructor
    · intro hfl
      rw [show ({ flag := s.flag, populated := true, tstate := upd s.tstate t .doneW } : ISys).flag = s.flag from rfl] at hfl
      rw [hflag hfl t] at ht
      exact absurd ht (by decide)
    · have key : ∀ u, isWinner
          { flag := s.flag, populated := true, tstate := upd s.tstate t .doneW } u →
          isWinner s u := by
        intro u hu
        simp only [isWinner] at hu ⊢
        by_cases hut : u = t
        · subst hut
          exact Or.inl ht
        · rw [upd_other _ _ _ _ hut] at hu
          exact hu
      intro a b ha hb
      exact huniq a b (key a ha) (key b hb)

/-- Every reachable guard state satisfies the guard invariant. -/
theorem iinv_reach {s : ISys} (h : IReach s) : IInv s := by
  induction h with
  | refl => exact iinv_init
  | tail _ hstep ih => exact iinv_step ih hstep

/-- Claim C10: `ksdl_binary_images_initialize` is idempotent under the
compare-and-set guard: in every reachable state at most one caller has won
the CAS (so discovery and notification registration are performed by exactly
that one caller); a losing call steps to a state with the guard flag and
population state unchanged; and there is a reachable interleaving in which a
loser has already returned while nothing is populated yet, so a caller
returning from a losing call has no guarantee the registry is populated. -/
theorem claimC10_initialize_once :
    (∀ s, IReach s → ∀ t u, isWinner s t → isWinner s u → t = u) ∧
    (∀ s t, s.tstate t = IStage.start → s.flag = true →
      IStep s (casLoseResult s t) ∧ (casLoseResult s t).flag = s.flag ∧
      (casLoseResult s t).populated = s.populated) ∧
    (∃ s, IReach s ∧ (∃ t, s.tstate t = IStage.loser) ∧ s.populated = false) := by
  refine ⟨?_, ?_, ?_⟩
  · intro s hs
    exact (iinv_reach hs).2
  · intro s t ht hf
    exact ⟨IStep.casLose s t ht hf, rfl, rfl⟩
  · refine ⟨casLoseResult iMid 1, ?_, ⟨1, ?_⟩, rfl⟩
    · have h1 : IStep initISys iMid := IStep.casWin initISys 0 rfl rfl
      have h2 : IStep iMid (casLoseResult iMid 1) := by
        refine IStep.casLose iMid 1 ?_ rfl
        show upd (fun _ => IStage.start) 0 IStage.won 1 = IStage.start
        simp [upd]
      exact Relation.ReflTransGen.tail (Relation.ReflTransGen.single h1) h2
    · exact upd_same iMid.tstate 1 IStage.loser

/-- Witness for C10: from a state with the flag set and nothing populated, a
fresh caller loses the CAS and changes neither the flag nor the population
state. -/
theorem claimC10_witness :
    IStep iW (casLoseResult iW 0) ∧ (casLoseResult iW 0).flag = iW.flag ∧
    (casLoseResult iW 0).populated = iW.populated :=
  claimC10_initialize_once.2.1 iW 0 rfl rfl

/-! ## Concurrent insertion: list helpers -/

/-- `getD` on an appended singleton, below the old length. -/
theorem getD_append_lt {α : Type} (l : List α) (x d : α) (j : Nat) (h : j < l.length) :
    (l ++ [x]).getD j d = l.getD j d := by
  rw [List.getD_eq_getElem _ _ (by simp; omega), List.getD_eq_getElem _ _ h]
  exact List.getElem_append_left h

/-- `getD` on an appended singleton, at the old length. -/
theorem getD_append_len {α : Type} (l : List α) (x d : α) :
    (l ++ [x]).getD l.length d = x := by
  rw [List.getD_eq_getElem _ _ (by simp)]
  simp

/-- `getD` inside the bound is a member. -/
theorem getD_mem {α : Type} (l : List α) (d : α) (j : Nat) (h : j < l.length) :
    l.getD j d ∈ l := by
  rw [List.getD_eq_getElem _ _ h]
  exact List.getElem_mem h

/-- In a `Nodup` list, in-bound `getD` is injective. -/
theorem nodup_getD_inj {α : Type} {l : List α} (hn : l.Nodup) {d : α} {i j : Nat}
    (hi : i < l.length) (hj : j < l.length) (he : l.getD i d = l.getD j d) : i = j := by
  rw [List.getD_eq_getElem _ _ hi, List.getD_eq_getElem _ _ hj] at he
  exact hn.getElem_inj_iff.mp he

/-- The chain has one more entry than the publication history. -/
theorem chainOf_length (s : Sys) : (chainOf s).length = s.pubs.length + 1 := rfl

/-- Chain entries at positions 1 and above are published nodes. -/
theorem chain_getD_succ_mem (s : Sys) (j : Nat) (h : j < s.pubs.length) :
    (chainOf s).getD (j + 1) 0 ∈ s.pubs := by
  rw [show (chainOf s).getD (j + 1) 0 = s.pubs.getD j 0 from rfl]
  exact getD_mem _ _ _ h

/-- Every field of `KSBinaryImage` appears in `allFields`. -/
theorem allFields_mem (f : FieldId) : f ∈ allFields := by
  cases f <;> simp [allFields]

/-- Every chain entry is an allocated cell. -/
theorem chain_mem_lt {s : Sys} (hInv : Inv s) : ∀ i ∈ chainOf s, i < s.alloc := by
  intro i hi
  rcases List.mem_cons.mp hi with h0 | hp
  · rw [h0]
    exact hInv.alloc_pos
  · exact hInv.pubs_lt i hp

/-- The dummy head is never published. -/
theorem zero_not_pub {s : Sys} (hInv : Inv s) : 0 ∉ s.pubs := by
  have hn := hInv.nodup
  rw [chainOf, List.nodup_cons] at hn
  exact hn.1

/-- A nonzero unpublished node is not on the chain. -/
theorem not_chain_of_unpub {s : Sys} {n : Nat} (hn0 : n ≠ 0) (hnp : n ∉ s.pubs) :
    n ∉ chainOf s := by
  rw [chainOf, List.mem_cons]
  rintro (h | h)
  · exact hn0 h
  · exact hnp h

/-! ## Concurrent insertion: invariant preservation -/

/-- The empty registry satisfies the protocol invariant. -/
theorem inv_init : Inv initSys := by
  refine ⟨?_, ?_, ?_, ?_, ?_, ?_, ?_, ?_, ?_⟩
  · decide
  · intro i hi
    exact absurd hi (by simp [initSys])
  · simp [chainOf, initSys]
  · rfl
  · intro j hj
    rw [chainOf_length] at hj
    simp [initSys] at hj
  · rfl
  · intro i hi
    exact absurd hi (by simp [initSys])
  · intro t ht
    exact absurd ht (by simp [initSys])
  · intro t u ht hu hne
    exact absurd ht (by simp [initSys])

/-- A spawn does not change the links of previously allocated cells. -/
theorem nextOf_spawn {s : Sys} {i : Nat} (h : i ≠ s.alloc) :
    nextOf (spawnSys s) i = nextOf s i := by
  show (upd s.heap s.alloc blankNode i).next = (s.heap i).next
  rw [upd_other _ _ _ _ h]

/-- `spawn` preserves the protocol invariant. -/
theorem inv_spawn {s : Sys} (hInv : Inv s) : Inv (spawnSys s) := by
  refine ⟨?_, ?_, ?_, ?_, ?_, ?_, ?_, ?_, ?_⟩
  · show 0 < s.alloc + 1
    omega
  · intro i hi
    show i < s.alloc + 1
    exact Nat.lt_succ_of_lt (hInv.pubs_lt i hi)
  · exact hInv.nodup
  · exact hInv.tail_eq
  · intro j hj
    have hj' : j + 1 < (chainOf s).length := hj
    have hlt : (chainOf s).getD j 0 < s.alloc :=
      chain_mem_lt hInv _ (getD_mem _ _ _ (by omega))
    show nextOf (spawnSys s) ((chainOf s).getD j 0) = none ∨
      nextOf (spawnSys s) ((chainOf s).getD j 0) = some ((chainOf s).getD (j + 1) 0)
    rw [nextOf_spawn (Nat.ne_of_lt hlt)]
    exact hInv.chain_next j hj'
  · show nextOf (spawnSys s) ((chainOf s).getD s.pubs.length 0) = none
    have hlt : (chainOf s).getD s.pubs.length 0 < s.alloc :=
      chain_mem_lt hInv _ (getD_mem _ _ _ (by rw [chainOf_length]; omega))
    rw [nextOf_spawn (Nat.ne_of_lt hlt)]
    exact hInv.last_next
  · intro i hi
    show fullyWritten (upd s.heap s.alloc blankNode i)
    rw [upd_other _ _ _ _ (Nat.ne_of_lt (hInv.pubs_lt i hi))]
    exact hInv.pubs_written i hi
  · intro t ht
    show ThreadInv (spawnSys s)
      (upd s.thr s.tcnt { node := s.alloc, st := .writing allFields } t)
    by_cases htc : t = s.tcnt
    · subst htc
      rw [upd_same]
      refine ⟨?_, ?_, ?_, ?_, ?_⟩
      · show s.alloc ≠ 0
        have := hInv.alloc_pos
        omega
      · show s.alloc < s.alloc + 1
        omega
      · show s.alloc ∉ s.pubs
        intro hmem
        exact absurd (hInv.pubs_lt _ hmem) (by omega)
      · show nextOf (spawnSys s) s.alloc = none
        show (upd s.heap s.alloc blankNode s.alloc).next = none
        rw [upd_same]
        rfl
      · intro f hf
        exact absurd (allFields_mem f) hf
    · rw [upd_other _ _ _ _ htc]
      have ht' : t < s.tcnt := by
        have h1 : t < s.tcnt + 1 := ht
        omega
      obtain ⟨h0, hlt, hst⟩ := hInv.thr_inv t ht'
      refine ⟨h0, ?_, ?_⟩
      · show (s.thr t).node < s.alloc + 1
        omega
      · cases hstc : (s.thr t).st with
        | writing fs =>
          rw [hstc] at hst
          obtain ⟨ha, hb, hc⟩ := hst
          refine ⟨ha, ?_, ?_⟩
          · rw [nextOf_spawn (Nat.ne_of_lt hlt)]
            exact hb
          · intro f hf
            show (upd s.heap s.alloc blankNode (s.thr t).node).written f = true
            rw [upd_other _ _ _ _ (Nat.ne_of_lt hlt)]
            exact hc f hf
        | published p =>
          rw [hstc] at hst
          obtain ⟨j, hj, hcp, hcn, hpn⟩ := hst
          refine ⟨j, hj, hcp, hcn, ?_⟩
          have hplt : p < s.alloc := by
            rw [← hcp]
            exact chain_mem_lt hInv _ (getD_mem _ _ _ (by omega))
          rw [nextOf_spawn (Nat.ne_of_lt hplt)]
          exact hpn
        | done =>
          rw [hstc] at hst
          exact hst
  · intro t u htl hul hne
    show (upd s.thr s.tcnt { node := s.alloc, st := .writing allFields } t).node ≠
      (upd s.thr s.tcnt { node := s.alloc, st := .writing allFields } u).node
    by_cases htc : t = s.tcnt <;> by_cases huc : u = s.tcnt
    · exact absurd (htc.trans huc.symm) hne
    · subst htc
      rw [upd_same, upd_other _ _ _ _ huc]
      have hu' : u < s.tcnt := by
        have h1 : u < s.tcnt + 1 := hul
        omega
      exact (Nat.ne_of_lt (hInv.thr_inv u hu').2.1).symm
    · subst huc
      rw [upd_other _ _ _ _ htc, upd_same]
      have ht' : t < s.tcnt := by
        have h1 : t < s.tcnt + 1 := htl
        omega
      exact Nat.ne_of_lt (hInv.thr_inv t ht').2.1
    · rw [upd_other _ _ _ _ htc, upd_other _ _ _ _ huc]
      have ht' : t < s.tcnt := by
        have h1 : t < s.tcnt + 1 := htl
        omega
      have hu' : u < s.tcnt := by
        have h1 : u < s.tcnt + 1 := hul
        omega
      exact hInv.thr_distinct t u ht' hu' hne

/-- Updating a thread entry without changing its node leaves the node map
unchanged. -/
theorem upd_thr_node (s : Sys) (t : Nat) (th : Thread)
    (hth : th.node = (s.thr t).node) (u : Nat) :
    (upd s.thr t th u).node = (s.thr u).node := by
  by_cases hut : u = t
  · subst hut
    rw [upd_same, hth]
  · rw [upd_other _ _ _ _ hut]

/-- A field write changes no link. -/
theorem nextOf_write {s : Sys} {t : Nat} {f : FieldId} {fs : List FieldId} {i : Nat} :
    nextOf (writeSys s t f fs) i = nextOf s i := by
  show (upd s.heap (s.thr t).node (setWritten (s.heap ((s.thr t).node)) f) i).next =
    (s.heap i).next
  by_cases hi : i = (s.thr t).node
  · subst hi
    rw [upd_same]
    rfl
  · rw [upd_other _ _ _ _ hi]

/-- `write` preserves the protocol invariant. -/
theorem inv_write {s : Sys} {t : Nat} {f : FieldId} {fs : List FieldId}
    (hInv : Inv s) (ht : t < s.tcnt) (hst : (s.thr t).st = .writing (f :: fs)) :
    Inv (writeSys s t f fs) := by
  obtain ⟨hn0, hnlt, hsti⟩ := hInv.thr_inv t ht
  rw [hst] at hsti
  obtain ⟨hnp, hnn, hw⟩ := hsti
  refine ⟨hInv.alloc_pos, hInv.pubs_lt, hInv.nodup, hInv.tail_eq, ?_, ?_, ?_, ?_, ?_⟩
  · intro j hj
    have hj' : j + 1 < (chainOf s).length := hj
    show nextOf (writeSys s t f fs) ((chainOf s).getD j 0) = none ∨
      nextOf (writeSys s t f fs) ((chainOf s).getD j 0) = some ((chainOf s).getD (j + 1) 0)
    rw [nextOf_write]
    exact hInv.chain_next j hj'
  · show nextOf (writeSys s t f fs) ((chainOf s).getD s.pubs.length 0) = none
    rw [nextOf_write]
    exact hInv.last_next
  · intro i hi
    show fullyWritten (upd s.heap (s.thr t).node (setWritten (s.heap ((s.thr t).node)) f) i)
    have hne : i ≠ (s.thr t).node := fun he => hnp (he ▸ hi)
    rw [upd_other _ _ _ _ hne]
    exact hInv.pubs_written i hi
  · intro u hu
    have hu' : u < s.tcnt := hu
    show ThreadInv (writeSys s t f fs)
      (upd s.thr t { node := (s.thr t).node, st := .writing fs } u)
    by_cases hut : u = t
    · subst hut
      rw [upd_same]
      refine ⟨hn0, hnlt, hnp, ?_, ?_⟩
      · rw [nextOf_write]
        exact hnn
      · intro g hg
        show (upd s.heap (s.thr u).node (setWritten (s.heap ((s.thr u).node)) f)
          (s.thr u).node).written g = true
        rw [upd_same]
        show (if g = f then true else (s.heap (s.thr u).node).written g) = true
        by_cases hgf : g = f
        · rw [if_pos hgf]
        · rw [if_neg hgf]
          refine hw g ?_
          intro hmem
          rcases List.mem_cons.mp hmem with h1 | h1
          · exact hgf h1
          · exact hg h1
    · rw [upd_other _ _ _ _ hut]
      obtain ⟨k0, klt, kst⟩ := hInv.thr_inv u hu'
      have hneq : (s.thr u).node ≠ (s.thr t).node := hInv.thr_distinct u t hu' ht hut
      refine ⟨k0, klt, ?_⟩
      cases hstc : (s.thr u).st with
      | writing gs =>
        rw [hstc] at kst
        obtain ⟨ka, kb, kc⟩ := kst
        refine ⟨ka, ?_, ?_⟩
        · rw [nextOf_write]
          exact kb
        · intro g hg
          show (upd s.heap (s.thr t).node (setWritten (s.heap ((s.thr t).node)) f)
            (s.thr u).node).written g = true
          rw [upd_other _ _ _ _ hneq]
          exact kc g hg
      | published p =>
        rw [hstc] at kst
        obtain ⟨j, hj, hcp, hcn, hpn⟩ := kst
        refine ⟨j, hj, hcp, hcn, ?_⟩
        rw [nextOf_write]
        exact hpn
      | done =>
        rw [hstc] at kst
        exact kst
  · intro a b ha hb hne
    show (upd s.thr t { node := (s.thr t).node, st := .writing fs } a).node ≠
      (upd s.thr t { node := (s.thr t).node, st := .writing fs } b).node
    rw [upd_thr_node s t { node := (s.thr t).node, st := .writing fs } rfl a,
      upd_thr_node s t { node := (s.thr t).node, st := .writing fs } rfl b]
    exact hInv.thr_distinct a b ha hb hne

/-- `publish` preserves the protocol invariant. -/
theorem inv_publish {s : Sys} {t : Nat} (hInv : Inv s) (ht : t < s.tcnt)
    (hst : (s.thr t).st = .writing []) : Inv (publishSys s t) := by
  obtain ⟨hn0, hnlt, hsti⟩ := hInv.thr_inv t ht
  rw [hst] at hsti
  obtain ⟨hnp, hnn, hw⟩ := hsti
  refine ⟨hInv.alloc_pos, ?_, ?_, ?_, ?_, ?_, ?_, ?_, ?_⟩
  · intro i hi
    show i < s.alloc
    rcases List.mem_append.mp hi with h1 | h1
    · exact hInv.pubs_lt i h1
    · rw [List.mem_singleton.mp h1]
      exact hnlt
  · show (chainOf s ++ [(s.thr t).node]).Nodup
    rw [List.nodup_append]
    refine ⟨hInv.nodup, by simp, ?_⟩
    intro a ha hb
    rw [List.mem_singleton.mp hb] at ha
    exact not_chain_of_unpub hn0 hnp ha
  · show (s.thr t).node =
      (chainOf s ++ [(s.thr t).node]).getD (s.pubs ++ [(s.thr t).node]).length 0
    rw [List.length_append, List.length_singleton,
      show s.pubs.length + 1 = (chainOf s).length from (chainOf_length s).symm,
      getD_append_len]
  · intro j hj
    have hj2 : j + 1 < (chainOf s).length + 1 := by
      have h1 : j + 1 < (chainOf s ++ [(s.thr t).node]).length := hj
      rw [List.length_append, List.length_singleton] at h1
      exact h1
    show nextOf s ((chainOf s ++ [(s.thr t).node]).getD j 0) = none ∨
      nextOf s ((chainOf s ++ [(s.thr t).node]).getD j 0) =
        some ((chainOf s ++ [(s.thr t).node]).getD (j + 1) 0)
    rcases Nat.lt_or_ge (j + 1) (chainOf s).length with hlt | hge
    · rw [getD_append_lt _ _ _ _ (by omega), getD_append_lt _ _ _ _ hlt]
      exact hInv.chain_next j hlt
    · have hjj : j = s.pubs.length := by
        rw [chainOf_length] at hj2 hge
        omega
      left
      rw [getD_append_lt _ _ _ _ (by rw [chainOf_length]; omega), hjj]
      exact hInv.last_next
  · show nextOf s
      ((chainOf s ++ [(s.thr t).node]).getD (s.pubs ++ [(s.thr t).node]).length 0) = none
    rw [List.length_append, List.length_singleton,
      show s.pubs.length + 1 = (chainOf s).length from (chainOf_length s).symm,
      getD_append_len]
    exact hnn
  · intro i hi
    show fullyWritten (s.heap i)
    rcases List.mem_append.mp hi with h1 | h1
    · exact hInv.pubs_written i h1
    · rw [List.mem_singleton.mp h1]
      intro g
      exact hw g (List.not_mem_nil g)
  · intro u hu
    have hu' : u < s.tcnt := hu
    show ThreadInv (publishSys s t)
      (upd s.thr t { node := (s.thr t).node, st := .published s.tail } u)
    by_cases hut : u = t
    · subst hut
      rw [upd_same]
      refine ⟨hn0, hnlt, s.pubs.length, ?_, ?_, ?_, ?_⟩
      · show s.pubs.length + 1 < (chainOf s ++ [(s.thr u).node]).length
        rw [List.length_append, List.length_singleton, chainOf_length]
        omega
      · show (chainOf s ++ [(s.thr u).node]).getD s.pubs.length 0 = s.tail
        rw [getD_append_lt _ _ _ _ (by rw [chainOf_length]; omega)]
        exact hInv.tail_eq.symm
      · show (chainOf s ++ [(s.thr u).node]).getD (s.pubs.length + 1) 0 = (s.thr u).node
        rw [show s.pubs.length + 1 = (chainOf s).length from (chainOf_length s).symm,
          getD_append_len]
      · show nextOf s s.tail = none
        rw [hInv.tail_eq]
        exact hInv.last_next
    · rw [upd_other _ _ _ _ hut]
      obtain ⟨k0, klt, kst⟩ := hInv.thr_inv u hu'
      refine ⟨k0, klt, ?_⟩
      cases hstc : (s.thr u).st with
      | writing gs =>
        rw [hstc] at kst
        obtain ⟨ka, kb, kc⟩ := kst
        refine ⟨?_, kb, kc⟩
        intro hmem
        rcases List.mem_append.mp hmem with h1 | h1
        · exact ka h1
        · exact hInv.thr_distinct u t hu' ht hut (List.mem_singleton.mp h1)
      | published p =>
        rw [hstc] at kst
        obtain ⟨j, hj, hcp, hcn, hpn⟩ := kst
        refine ⟨j, ?_, ?_, ?_, hpn⟩
        · show j + 1 < (chainOf s ++ [(s.thr t).node]).length
          rw [List.length_append, List.length_singleton]
          omega
        · show (chainOf s ++ [(s.thr t).node]).getD j 0 = p
          rw [getD_append_lt _ _ _ _ (by omega)]
          exact hcp
        · show (chainOf s ++ [(s.thr t).node]).getD (j + 1) 0 = (s.thr u).node
          rw [getD_append_lt _ _ _ _ hj]
          exact hcn
      | done =>
        rw [hstc] at kst
        show (s.thr u).node ∈ s.pubs ++ [(s.thr t).node]
        exact List.mem_append_left _ kst
  · intro a b ha hb hne
    show (upd s.thr t { node := (s.thr t).node, st := .published s.tail } a).node ≠
      (upd s.thr t { node := (s.thr t).node, st := .published s.tail } b).node
    rw [upd_thr_node s t { node := (s.thr t).node, st := .published s.tail } rfl a,
      upd_thr_node s t { node := (s.thr t).node, st := .published s.tail } rfl b]
    exact hInv.thr_distinct a b ha hb hne

/-- `link` preserves the protocol invariant. -/
theorem inv_link {s : Sys} {t pred : Nat} (hInv : Inv s) (ht : t < s.tcnt)
    (hst : (s.thr t).st = .published pred) : Inv (linkSys s t pred) := by
  obtain ⟨hn0, hnlt, hsti⟩ := hInv.thr_inv t ht
  rw [hst] at hsti
  obtain ⟨j0, hj0, hcp, hcn, hpn⟩ := hsti
  have hj0len : j0 < (chainOf s).length := by omega
  have hj0p : j0 < s.pubs.length := by
    have h1 := hj0
    rw [chainOf_length] at h1
    omega
  have hnext' : ∀ i, i ≠ pred → nextOf (linkSys s t pred) i = nextOf s i := by
    intro i hi
    show (upd s.heap pred (setNext (s.heap pred) ((s.thr t).node)) i).next = (s.heap i).next
    rw [upd_other _ _ _ _ hi]
  have hnextp : nextOf (linkSys s t pred) pred = some ((s.thr t).node) := by
    show (upd s.heap pred (setNext (s.heap pred) ((s.thr t).node)) pred).next = _
    rw [upd_same]
    rfl
  have hwr : ∀ i g, ((linkSys s t pred).heap i).written g = (s.heap i).written g := by
    intro i g
    show (upd s.heap pred (setNext (s.heap pred) ((s.thr t).node)) i).written g = _
    by_cases hi : i = pred
    · subst hi
      rw [upd_same]
      rfl
    · rw [upd_other _ _ _ _ hi]
  refine ⟨hInv.alloc_pos, hInv.pubs_lt, hInv.nodup, hInv.tail_eq, ?_, ?_, ?_, ?_, ?_⟩
  · intro j hj
    have hj' : j + 1 < (chainOf s).length := hj
    show nextOf (linkSys s t pred) ((chainOf s).getD j 0) = none ∨
      nextOf (linkSys s t pred) ((chainOf s).getD j 0) = some ((chainOf s).getD (j + 1) 0)
    by_cases hjp : (chainOf s).getD j 0 = pred
    · have hjj : j = j0 :=
        nodup_getD_inj hInv.nodup (by omega) hj0len (hjp.trans hcp.symm)
      right
      rw [hjp, hnextp, hjj, hcn]
    · rw [hnext' _ hjp]
      exact hInv.chain_next j hj'
  · show nextOf (linkSys s t pred) ((chainOf s).getD s.pubs.length 0) = none
    have hlne : (chainOf s).getD s.pubs.length 0 ≠ pred := by
      intro he
      have h1 : s.pubs.length = j0 :=
        nodup_getD_inj hInv.nodup (by rw [chainOf_length]; omega) hj0len
          (he.trans hcp.symm)
      omega
    rw [hnext' _ hlne]
    exact hInv.last_next
  · intro i hi
    intro g
    rw [hwr]
    exact hInv.pubs_written i hi g
  · intro u hu
    have hu' : u < s.tcnt := hu
    show ThreadInv (linkSys s t pred)
      (upd s.thr t { node := (s.thr t).node, st := .done } u)
    by_cases hut : u = t
    · subst hut
      rw [upd_same]
      refine ⟨hn0, hnlt, ?_⟩
      show (s.thr u).node ∈ s.pubs
      rw [← hcn]
      exact chain_getD_succ_mem s j0 hj0p
    · rw [upd_other _ _ _ _ hut]
      obtain ⟨k0, klt, kst⟩ := hInv.thr_inv u hu'
      refine ⟨k0, klt, ?_⟩
      cases hstc : (s.thr u).st with
      | writing gs =>
        rw [hstc] at kst
        obtain ⟨ka, kb, kc⟩ := kst
        have hnch : (s.thr u).node ≠ pred := by
          intro he
          have hmem : pred ∈ chainOf s := by
            rw [← hcp]
            exact getD_mem _ _ _ hj0len
          exact not_chain_of_unpub k0 ka (he ▸ hmem)
        refine ⟨ka, ?_, ?_⟩
        · rw [hnext' _ hnch]
          exact kb
        · intro g hg
          rw [hwr]
          exact kc g hg
      | published q =>
        rw [hstc] at kst
        obtain ⟨j', hj', hcq, hcnq, hqn⟩ := kst
        have hqp : q ≠ pred := by
          intro he
          have hjj : j' = j0 :=
            nodup_getD_inj hInv.nodup (by omega) hj0len ((hcq.trans he).trans hcp.symm)
          have heq : (s.thr u).node = (s.thr t).node := by
            rw [← hcnq, hjj, hcn]
          exact hInv.thr_distinct u t hu' ht hut heq
        refine ⟨j', hj', hcq, hcnq, ?_⟩
        rw [hnext' _ hqp]
        exact hqn
      | done =>
        rw [hstc] at kst
        exact kst
  · intro a b ha hb hne
    show (upd s.thr t { node := (s.thr t).node, st := .done } a).node ≠
      (upd s.thr t { node := (s.thr t).node, st := .done } b).node
    rw [upd_thr_node s t { node := (s.thr t).node, st := .done } rfl a,
      upd_thr_node s t { node := (s.thr t).node, st := .done } rfl b]
    exact hInv.thr_distinct a b ha hb hne

/-- Every step preserves the protocol invariant. -/
theorem inv_step {s s' : Sys} (hInv : Inv s) (h : Step s s') : Inv s' := by
  cases h with
  | spawn => exact inv_spawn hInv
  | write t f fs ht hst => exact inv_write hInv ht hst
  | publish t ht hst => exact inv_publish hInv ht hst
  | link t pred ht hst => exact inv_link hInv ht hst

/-- Every reachable state satisfies the protocol invariant. -/
theorem inv_reach {s : Sys} (h : Reach s) : Inv s := by
  induction h with
  | refl => exact inv_init
  | tail _ hstep ih => exact inv_step ih hstep

/-- Once an allocated cell's link is set, no step ever reassigns it. -/
theorem next_stable {s s' : Sys} (hInv : Inv s) (h : Step s s') {i j : Nat}
    (hi : i < s.alloc) (hn : nextOf s i = some j) : nextOf s' i = some j := by
  cases h with
  | spawn =>
    rw [nextOf_spawn (Nat.ne_of_lt hi)]
    exact hn
  | write t f fs ht hst =>
    rw [nextOf_write]
    exact hn
  | publish t ht hst => exact hn
  | link t pred ht hst =>
    obtain ⟨hn0, hnlt, hsti⟩ := hInv.thr_inv t ht
    rw [hst] at hsti
    obtain ⟨j0, hj0, hcp, hcn, hpn⟩ := hsti
    have hip : i ≠ pred := by
      intro he
      rw [he, hpn] at hn
      exact Option.noConfusion hn
    show (upd s.heap pred (setNext (s.heap pred) ((s.thr t).node)) i).next = some j
    rw [upd_other _ _ _ _ hip]
    exact hn

/-! ## Reader traversal -/

/-- From chain position `j`, a traversal with enough fuel reaches NULL and
returns a prefix (in order) of the publications from position `j` on. -/
theorem trav_chain {s : Sys} (hInv : Inv s) :
    ∀ (fuel j : Nat), j < (chainOf s).length → s.pubs.length - j ≤ fuel →
    ∃ m, travAux s fuel ((chainOf s).getD j 0) = some ((s.pubs.drop j).take m) := by
  intro fuel
  induction fuel with
  | zero =>
    intro j hj hfu
    have hj' : j = s.pubs.length := by
      rw [chainOf_length] at hj
      omega
    refine ⟨0, ?_⟩
    rw [hj']
    show travAux s 0 ((chainOf s).getD s.pubs.length 0) = some []
    rw [travAux, hInv.last_next]
  | succ fuel ih =>
    intro j hj hfu
    cases hnx : nextOf s ((chainOf s).getD j 0) with
    | none =>
      refine ⟨0, ?_⟩
      rw [travAux, hnx]
      rfl
    | some k =>
      have hjlt : j + 1 < (chainOf s).length := by
        by_contra hge
        have hj' : j = s.pubs.length := by
          rw [chainOf_length] at hj hge
          omega
        rw [hj', hInv.last_next] at hnx
        exact Option.noConfusion hnx
      have hk : k = (chainOf s).getD (j + 1) 0 := by
        rcases hInv.chain_next j hjlt with h1 | h1
        · rw [h1] at hnx
          exact Option.noConfusion hnx
        · have h2 := h1.symm.trans hnx
          injection h2 with h3
          exact h3.symm
      obtain ⟨m, hm⟩ := ih (j + 1) hjlt (by omega)
      refine ⟨m + 1, ?_⟩
      rw [travAux, hnx]
      show (travAux s fuel k).map (fun l => k :: l) = some ((s.pubs.drop j).take (m + 1))
      rw [← hk] at hm
      rw [hm]
      have hjp : j < s.pubs.length := by
        rw [chainOf_length] at hjlt
        omega
      have hdrop : s.pubs.drop j = s.pubs.getD j 0 :: s.pubs.drop (j + 1) := by
        rw [List.getD_eq_getElem _ _ hjp]
        exact List.drop_eq_getElem_cons hjp
      have hkp : k = s.pubs.getD j 0 := by
        rw [hk]
        rfl
      rw [hdrop, List.take_succ_cons, hkp]
      rfl

/-- Claim C1: in every state reachable by any interleaving of concurrent
insertions, a traversal from the registry head terminates (it reaches the
NULL link within `alloc` steps, so the list is acyclic), observes exactly a
prefix of the published nodes in publication order, and every observed node
is fully initialized — no descriptor field is ever seen partially written. -/
theorem claimC1_traversal_prefix (s : Sys) (h : Reach s) :
    ∃ m, traversal s = some (s.pubs.take m) ∧
      ∀ i ∈ s.pubs.take m, fullyWritten (s.heap i) := by
  have hInv := inv_reach h
  have hlen : s.pubs.length ≤ s.alloc := by
    have hnd : s.pubs.Nodup := (List.nodup_cons.mp hInv.nodup).2
    have hsub : s.pubs.toFinset ⊆ Finset.range s.alloc := by
      intro x hx
      rw [List.mem_toFinset] at hx
      rw [Finset.mem_range]
      exact hInv.pubs_lt x hx
    have hcard := Finset.card_le_card hsub
    rw [List.toFinset_card_of_nodup hnd] at hcard
    simpa using hcard
  obtain ⟨m, hm⟩ := trav_chain hInv s.alloc 0 (by rw [chainOf_length]; omega) (by omega)
  refine ⟨m, hm, ?_⟩
  intro i hi
  exact hInv.pubs_written i (List.take_subset _ _ hi)

/-- Witness for C1: the empty registry's traversal is the empty prefix. -/
theorem claimC1_witness :
    ∃ m, traversal initSys = some (initSys.pubs.take m) ∧
      ∀ i ∈ initSys.pubs.take m, fullyWritten (initSys.heap i) :=
  claimC1_traversal_prefix initSys Relation.ReflTransGen.refl

/-! ## Insertion order and no de-duplication -/

/-- `runAdds` appends the successfully parsed descriptors in input order. -/
theorem runAdds_filterMap (inputs : List (Option Image × Int × Env))
    (images : List KSBinaryImage) :
    runAdds inputs images = images ++
      inputs.filterMap (fun inp => ksdl_getBinaryImageForHeader inp.1 inp.2.1 inp.2.2) := by
  induction inputs generalizing images with
  | nil => simp [runAdds]
  | cons x xs ih =>
    show runAdds xs (add_image x.1 x.2.1 x.2.2 images) = _
    rw [ih, List.filterMap_cons]
    cases hp : ksdl_getBinaryImageForHeader x.1 x.2.1 x.2.2 with
    | none => rw [add_image, hp]
    | some d =>
      rw [add_image, hp]
      simp

/-- `filterMap` over a list on which `f` never fails is `map`. -/
theorem filterMap_all_some {α β : Type} (f : α → Option β) (l : List α)
    (h : ∀ x ∈ l, (f x).isSome = true) :
    (l.filterMap f).map some = l.map f := by
  induction l with
  | nil => rfl
  | cons x xs ih =>
    rw [List.filterMap_cons, List.map_cons]
    cases hp : f x with
    | none =>
      exact absurd (h x (by simp)) (by rw [hp]; simp)
    | some d =>
      rw [List.map_cons, ih (fun y hy => h y (by simp [hy]))]

/-- Claim C3: inserting N parseable images with pairwise-distinct headers
into the empty registry yields exactly N descriptors, in insertion order (the
i-th descriptor is the parse of the i-th input); the insert path performs no
de-duplication (adding the same header twice yields two descriptors); and no
node's `next` link is ever reassigned once set. -/
theorem claimC3_insert_order_no_dedup :
    (∀ (inputs : List (Option Image × Int × Env)),
      (inputs.map Prod.fst).Pairwise (· ≠ ·) →
      (∀ inp ∈ inputs, (ksdl_getBinaryImageForHeader inp.1 inp.2.1 inp.2.2).isSome = true) →
      (ksdl_get_images (runAdds inputs [])).map some =
        inputs.map (fun inp => ksdl_getBinaryImageForHeader inp.1 inp.2.1 inp.2.2) ∧
      (ksdl_get_images (runAdds inputs [])).length = inputs.length) ∧
    (∀ (x : Option Image × Int × Env) (d : KSBinaryImage),
      ksdl_getBinaryImageForHeader x.1 x.2.1 x.2.2 = some d →
      runAdds [x, x] [] = [d, d]) ∧
    (∀ s s' : Sys, Reach s → Step s s' → ∀ i j : Nat, i < s.alloc →
      nextOf s i = some j → nextOf s' i = some j) := by
  refine ⟨?_, ?_, ?_⟩
  · intro inputs _hdist hok
    have he : ksdl_get_images (runAdds inputs []) =
        inputs.filterMap (fun inp => ksdl_getBinaryImageForHeader inp.1 inp.2.1 inp.2.2) := by
      rw [ksdl_get_images, runAdds_filterMap]
      rfl
    have hmap := filterMap_all_some
      (fun inp => ksdl_getBinaryImageForHeader inp.1 inp.2.1 inp.2.2) inputs hok
    constructor
    · rw [he]
      exact hmap
    · have hlen := congrArg List.length hmap
      rw [List.length_map, List.length_map] at hlen
      rw [he]
      exact hlen
  · intro x d hp
    rw [runAdds_filterMap]
    simp [List.filterMap_cons, hp]
  · intro s s' hr hst i j hi hn
    exact next_stable (inv_reach hr) hst hi hn

/-- Witness for C3: adding the same header twice yields two descriptors. -/
theorem claimC3_witness :
    runAdds [(some imageW, 0, envW), (some imageW, 0, envW)] [] = [descW, descW] :=
  claimC3_insert_order_no_dedup.2.1 (some imageW, 0, envW) descW (by decide)

end KSDL
